import Mathlib

/-!
Verification of the dancing-links (DLX) sudoku solver in `src/sudoku.c`.

The C program is embedded shallowly: the arena of `DLXObject`s allocated in
`solve_puzzle` becomes a family of `Array Nat` fields indexed by node number
(node 0 is the root header, nodes `1 .. 4*N*N` are the column headers in
allocation order, and the remaining `4*N*N*N` nodes are the row objects,
four per (row, column, value) choice, in allocation order).  Pointer fields
`left/right/up/down/column` become arrays of node indices; `col_data[i]`
(the `row_count` of header `1+i`) becomes `rowCount : Array Int`; the
`DLXRowData` table becomes the arrays `rdRow/rdCol/rdVal` together with the
per-node `dataIx` pointer.  Every C statement that reads or writes memory is
translated to a read or write of the then-current state, in source order.
Unbounded C loops become fueled recursions; when fuel runs out the `stuck`
flag is set so that a fuel-exhausted run is never mistaken for a completed
one.  Fields the C program leaves uninitialized (e.g. the root header's
`up`/`down`) are modelled as 0; no theorem below depends on such a field
being read before it is written.
-/

namespace SudokuDLX

/-- Linear search for the integer square root: the largest `s ≤ fuel + s0`
with `s * s ≤ n`, starting from a candidate `s0` with `s0 * s0 ≤ n`. -/
def sqrtGo (n : Nat) : Nat → Nat → Nat
  | 0, s => s
  | fuel + 1, s => if (s + 1) * (s + 1) ≤ n then sqrtGo n fuel (s + 1) else s

/-- `(int)sqrt((double)x)` of the C program: for the arguments the program
uses it on (`x ≤ 256`), the correctly rounded `double` square root
truncates to the integer square root `⌊√x⌋`. -/
def intSqrt (n : Nat) : Nat := sqrtGo n n 0

/-- Read an array of node indices; out-of-range reads (which the C program
never performs on the runs we reason about) give 0. -/
def rd (a : Array Nat) (i : Nat) : Nat := a.getD i 0

/-- Read the row-count array. -/
def rdI (a : Array Int) (i : Nat) : Int := a.getD i 0

/-- Write an array of node indices. -/
def wr (a : Array Nat) (i : Nat) (v : Nat) : Array Nat := a.setD i v

/-- The whole mutable store of `sudoku.c` during one `solve_puzzle` call:
the node arena (`left/right/up/down/colIx/dataIx`), the column data
(`rowCount`), the choice data (`rdRow/rdCol/rdVal`), and the fields of the
global `dlx_params` (`solution`, `init`, `numSolutions`) together with the
list of grids printed so far (`reported`) and the fuel-exhaustion marker
(`stuck`). -/
structure DLX where
  left : Array Nat
  right : Array Nat
  up : Array Nat
  down : Array Nat
  colIx : Array Nat
  dataIx : Array Nat
  rowCount : Array Int
  rdRow : Array Nat
  rdCol : Array Nat
  rdVal : Array Nat
  size : Nat
  ncols : Nat
  solution : Array Nat
  myInit : Array Nat
  numSolutions : Nat
  reported : List (Array Nat)
  stuck : Bool
  deriving DecidableEq, Repr

/-- `get_column_data(c)->row_count`: header `c` owns `col_data[c-1]`. -/
def rcOf (s : DLX) (c : Nat) : Int := rdI s.rowCount (c - 1)

/-- `get_column_data(c)->row_count--`. -/
def decRC (c : Nat) (s : DLX) : DLX :=
  { s with rowCount := s.rowCount.setD (c - 1) (rdI s.rowCount (c - 1) - 1) }

/-- `get_column_data(c)->row_count++`. -/
def incRC (c : Nat) (s : DLX) : DLX :=
  { s with rowCount := s.rowCount.setD (c - 1) (rdI s.rowCount (c - 1) + 1) }

/-- One step of `cover_column`'s inner loop body (sudoku.c:185-187):
`j->down->up = j->up; j->up->down = j->down;` followed by the row-count
decrement, each statement reading the state left by the previous one. -/
def unlinkJ (j : Nat) (s : DLX) : DLX :=
  let s1 := { s with up := wr s.up (rd s.down j) (rd s.up j) }
  let s2 := { s1 with down := wr s1.down (rd s1.up j) (rd s1.down j) }
  decRC (rd s2.colIx j) s2

/-- One step of `uncover_column`'s inner loop body (sudoku.c:195-197):
the row-count increment, then `j->down->up = j; j->up->down = j;`. -/
def relinkJ (j : Nat) (s : DLX) : DLX :=
  let s1 := incRC (rd s.colIx j) s
  let s2 := { s1 with up := wr s1.up (rd s1.down j) j }
  { s2 with down := wr s2.down (rd s2.up j) j }

/-- `cover_column`'s inner loop: `for (j = i->right; j != i; j = j->right)`. -/
def coverJLoop (i : Nat) : Nat → Nat → DLX → DLX
  | 0, _, s => { s with stuck := true }
  | fuel + 1, j, s =>
    if j = i then s
    else
      let s' := unlinkJ j s
      coverJLoop i fuel (rd s'.right j) s'

/-- `cover_column`'s outer loop: `for (i = c->down; i != c; i = i->down)`. -/
def coverILoop (c : Nat) : Nat → Nat → DLX → DLX
  | 0, _, s => { s with stuck := true }
  | fuel + 1, i, s =>
    if i = c then s
    else
      let s' := coverJLoop i (s.left.size + 1) (rd s.right i) s
      coverILoop c fuel (rd s'.down i) s'

/-- `cover_column` (sudoku.c:180-190). -/
def cover_column (c : Nat) (s : DLX) : DLX :=
  let s1 := { s with left := wr s.left (rd s.right c) (rd s.left c) }
  let s2 := { s1 with right := wr s1.right (rd s1.left c) (rd s1.right c) }
  coverILoop c (s2.left.size + 1) (rd s2.down c) s2

/-- `uncover_column`'s inner loop: `for (j = i->left; j != i; j = j->left)`. -/
def uncoverJLoop (i : Nat) : Nat → Nat → DLX → DLX
  | 0, _, s => { s with stuck := true }
  | fuel + 1, j, s =>
    if j = i then s
    else
      let s' := relinkJ j s
      uncoverJLoop i fuel (rd s'.left j) s'

/-- `uncover_column`'s outer loop: `for (i = c->up; i != c; i = i->up)`. -/
def uncoverILoop (c : Nat) : Nat → Nat → DLX → DLX
  | 0, _, s => { s with stuck := true }
  | fuel + 1, i, s =>
    if i = c then s
    else
      let s' := uncoverJLoop i (s.left.size + 1) (rd s.left i) s
      uncoverILoop c fuel (rd s'.up i) s'

/-- `uncover_column` (sudoku.c:192-202). -/
def uncover_column (c : Nat) (s : DLX) : DLX :=
  let s' := uncoverILoop c (s.left.size + 1) (rd s.up c) s
  let t1 := { s' with left := wr s'.left (rd s'.right c) c }
  { t1 with right := wr t1.right (rd t1.left c) c }

/-- The column-selection scan of `dlx_solve` (sudoku.c:219-225):
arguments are fuel, the cursor `j`, the best column so far `c`, and the
minimum row-count so far. -/
def selectLoop (s : DLX) : Nat → Nat → Nat → Int → Nat
  | 0, _, c, _ => c
  | fuel + 1, j, c, min =>
    if j = 0 then c
    else
      let rc := rcOf s j
      if rc < min then selectLoop s fuel (rd s.right j) j rc
      else selectLoop s fuel (rd s.right j) c min

/-- The column chosen by `dlx_solve` (sudoku.c:217-225): scan the root's
right chain, starting with `c = h` and `min_row_count = size + 1`. -/
def choose_column (s : DLX) : Nat :=
  selectLoop s (s.left.size + 1) (rd s.right 0) 0 ((s.size : Int) + 1)

/-- The loop `for (j = r->right; j != r; j = j->right) cover_column(j->column)`
(sudoku.c:233-234). -/
def coverOthers (r : Nat) : Nat → Nat → DLX → DLX
  | 0, _, s => { s with stuck := true }
  | fuel + 1, j, s =>
    if j = r then s
    else
      let s' := cover_column (rd s.colIx j) s
      coverOthers r fuel (rd s'.right j) s'

/-- The loop `for (j = r->left; j != r; j = j->left) uncover_column(j->column)`
(sudoku.c:237-238). -/
def uncoverOthers (r : Nat) : Nat → Nat → DLX → DLX
  | 0, _, s => { s with stuck := true }
  | fuel + 1, j, s =>
    if j = r then s
    else
      let s' := uncover_column (rd s.colIx j) s
      uncoverOthers r fuel (rd s'.left j) s'

/-- Record a solution (sudoku.c:206-215): `print_puzzle` on the solution
grid — modelled by appending the grid to `reported` — then
`num_solutions++`. -/
def recordSolution (s : DLX) : DLX :=
  { s with reported := s.reported ++ [s.solution],
           numSolutions := s.numSolutions + 1 }

/-- The candidate-row loop of `dlx_solve` (sudoku.c:227-239):
`for (r = c->down; r != c; r = r->down)`, where `solveF` is the recursive
`dlx_solve()` call at the next depth. -/
def rowLoop (solveF : DLX → DLX) (c : Nat) : Nat → Nat → DLX → DLX
  | 0, _, s => { s with stuck := true }
  | m + 1, r, s =>
    if r = c then s
    else
      let d := rd s.dataIx r
      let g := s.solution.setD (rd s.rdRow d * s.size + rd s.rdCol d) (rd s.rdVal d)
      let s1 := { s with solution := g }
      let s2 := coverOthers r (s1.left.size + 1) (rd s1.right r) s1
      let s3 := solveF s2
      let s4 := uncoverOthers r (s3.left.size + 1) (rd s3.left r) s3
      rowLoop solveF c m (rd s4.down r) s4

/-- The body of `dlx_solve` (sudoku.c:204-241), with `solveF` standing for
the recursive call. -/
def solveStep (solveF : DLX → DLX) (s : DLX) : DLX :=
  if rd s.right 0 = 0 then recordSolution s
  else
    let c := choose_column s
    let s1 := cover_column c s
    let s2 := rowLoop solveF c (s1.left.size + 1) (rd s1.down c) s1
    uncover_column c s2

/-- `dlx_solve` (sudoku.c:204-241), with explicit recursion-depth fuel. -/
def dlx_solve : Nat → DLX → DLX
  | 0, s => { s with stuck := true }
  | fuel + 1, s => solveStep (dlx_solve fuel) s

/-! ## The matrix builder (`solve_puzzle`, sudoku.c:243-333) -/

/-- The builder's loop state: the arena under construction, the
`object_cols` table of bottom-most objects per column, and the `obj`
allocation cursor. -/
structure BuildSt where
  s : DLX
  oc : Array Nat
  obj : Nat

/-- The all-zero arena before any field is assigned (C leaves it
uninitialized; 0 stands for the unwritten bytes). -/
def emptyDLX (N : Nat) : DLX :=
  let T := 4 * (N * N * N) + 4 * (N * N) + 1
  { left := Array.mkArray T 0
    right := Array.mkArray T 0
    up := Array.mkArray T 0
    down := Array.mkArray T 0
    colIx := Array.mkArray T 0
    dataIx := Array.mkArray T 0
    rowCount := Array.mkArray (4 * (N * N)) 0
    rdRow := Array.mkArray (N * N * N) 0
    rdCol := Array.mkArray (N * N * N) 0
    rdVal := Array.mkArray (N * N * N) 0
    size := N
    ncols := 4 * (N * N)
    solution := Array.mkArray (N * N) 0
    myInit := Array.mkArray (N * N) 0
    numSolutions := 0
    reported := []
    stuck := false }

/-- The header-linking loop (sudoku.c:261-269), iterating `i` over
`[i0, i0 + m)`. -/
def headerLoop (N : Nat) : Nat → Nat → DLX × Array Nat → DLX × Array Nat
  | _, 0, st => st
  | i, m + 1, (s, oc) =>
    let c := 1 + i
    let s := { s with
      left := wr s.left c (c - 1)
      right := wr s.right c (c + 1)
      colIx := wr s.colIx c c
      rowCount := s.rowCount.setD i (N : Int) }
    headerLoop N (i + 1) m (s, oc.setD i c)

/-- One iteration of the four-constraint loop (sudoku.c:296-307) for choice
`d` and constraint column index `idx`. -/
def linkOne (d idx : Nat) (st : BuildSt) : BuildSt :=
  let obj := st.obj
  let above := rd st.oc idx
  let s := { st.s with
    up := wr st.s.up obj above
    left := wr st.s.left obj (obj - 1)
    right := wr st.s.right obj (obj + 1)
    colIx := wr st.s.colIx obj (1 + idx)
    dataIx := wr st.s.dataIx obj d }
  let s := { s with down := wr s.down above obj }
  { s := s, oc := st.oc.setD idx obj, obj := obj + 1 }

/-- One (row, column, value) choice of the row-building loops
(sudoku.c:277-311).  The C code iterates `r`, `c`, `v` in three nested
loops; here `d` counts the choices in the identical order, with
`r = d / N²`, `c = (d / N) % N`, `v = d % N + 1`. -/
def addChoice (N d : Nat) (st : BuildSt) : BuildSt :=
  let r := d / (N * N)
  let c := (d / N) % N
  let v := d % N + 1
  let bs := intSqrt N
  let bi := r - r % bs + c / bs
  let st := { st with s := { st.s with
    rdRow := st.s.rdRow.setD d r
    rdCol := st.s.rdCol.setD d c
    rdVal := st.s.rdVal.setD d v } }
  let start := st.obj
  let st := linkOne d (N * r + c) st
  let st := linkOne d (N * N + (N * r + v - 1)) st
  let st := linkOne d (2 * (N * N) + (N * c + v - 1)) st
  let st := linkOne d (3 * (N * N) + (N * bi + v - 1)) st
  { st with s := { st.s with
    left := wr st.s.left start (st.obj - 1)
    right := wr st.s.right (st.obj - 1) start } }

/-- The choice loop, iterating `d` over `[d0, d0 + m)`. -/
def choiceLoop (N : Nat) : Nat → Nat → BuildSt → BuildSt
  | _, 0, st => st
  | d, m + 1, st => choiceLoop N (d + 1) m (addChoice N d st)

/-- The column-closing loop (sudoku.c:313-317), iterating `i` over
`[i0, i0 + m)`: `o->down = o->column; o->column->up = o;`. -/
def closeLoop : Nat → Nat → BuildSt → BuildSt
  | _, 0, st => st
  | i, m + 1, st =>
    let o := rd st.oc i
    let s := { st.s with down := wr st.s.down o (rd st.s.colIx o) }
    let s := { s with up := wr s.up (rd s.colIx o) o }
    closeLoop (i + 1) m { st with s := s }

/-- The fully linked matrix before clue pre-covering (sudoku.c:250-318). -/
def build_base (N : Nat) : DLX :=
  let s0 := emptyDLX N
  let K := 4 * (N * N)
  let s1 := { s0 with left := wr s0.left 0 K, right := wr s0.right 0 1 }
  let (s2, oc) := headerLoop N 0 K (s1, Array.mkArray K 0)
  let s3 := { s2 with right := wr s2.right K 0 }
  let st := choiceLoop N 0 (N * N * N) ⟨s3, oc, K + 1⟩
  (closeLoop 0 K st).s

/-- The loop `for (o = dlx_row->right; o != dlx_row; o = o->right)
cover_column(o->column)` (sudoku.c:329-330). -/
def clueCoverLoop (dlxRow : Nat) : Nat → Nat → DLX → DLX
  | 0, _, s => { s with stuck := true }
  | fuel + 1, o, s =>
    if o = dlxRow then s
    else
      let s' := cover_column (rd s.colIx o) s
      clueCoverLoop dlxRow fuel (rd s'.right o)  s'

/-- The clue pre-covering loops (sudoku.c:321-333), iterating the cell
index over `[idx, idx + m)` in the row-major order of the two C loops
(`r = idx / N`, `c = idx % N`). -/
def clueLoop (N : Nat) (p : Array Nat) : Nat → Nat → DLX → DLX
  | _, 0, s => s
  | idx, m + 1, s =>
    let r := idx / N
    let c := idx % N
    let v := rd p (r * N + c)
    let s' :=
      if v = 0 then s
      else
        let dlxRow := 4 * (N * N) + 1 + 4 * ((N * N) * r + N * c + (v - 1))
        let s1 := cover_column (rd s.colIx dlxRow) s
        clueCoverLoop dlxRow (s1.left.size + 1) (rd s1.right dlxRow) s1
    clueLoop N p (idx + 1) m s'

/-- `solve_puzzle` (sudoku.c:243-354) up to and including the `dlx_solve()`
call: build the matrix, pre-cover the clues, copy the input grid into the
fresh solution grid, and search.  `fuel` bounds the recursion depth of the
(unbounded) C recursion. -/
def solve_puzzle (N : Nat) (p : Array Nat) (fuel : Nat) : DLX :=
  let s := clueLoop N p 0 (N * N) (build_base N)
  let s := { s with solution := p, myInit := p, numSolutions := 0, reported := [] }
  dlx_solve fuel s

/-! ## Input validation (`read_puzzle`, sudoku.c:128-174) -/

/-- `kMaxPuzzleSize` (sudoku.c:57). -/
def kMaxPuzzleSize : Int := 256

/-- `sscanf(buf, "%d", &x)`: optional sign followed by at least one digit;
trailing non-digit characters are ignored, as `sscanf` ignores them. -/
def parse_int (str : String) : Option Int :=
  let rec digits : List Char → Nat → Bool → Option Nat
    | [], acc, seen => if seen then some acc else none
    | ch :: rest, acc, seen =>
      if ch.isDigit then digits rest (acc * 10 + (ch.toNat - 48)) true
      else if seen then some acc else none
  match str.toList with
  | '-' :: rest => (digits rest 0 false).map (fun n => -(n : Int))
  | '+' :: rest => (digits rest 0 false).map (fun n => (n : Int))
  | l => (digits l 0 false).map (fun n => (n : Int))

/-- `issquare` (sudoku.c:128-131). -/
def issquare (x : Nat) : Bool := intSqrt x * intSqrt x == x

/-- The cell-reading phase of `read_puzzle` (sudoku.c:157-168). -/
def readCells (N : Nat) : List String → Nat → Array Nat → Option (Array Nat)
  | [], cell, acc => if cell = N * N then some acc else none
  | tok :: rest, cell, acc =>
    if cell ≥ N * N then none
    else
      match (if tok = "." then some (0 : Int) else
              match parse_int tok with
              | none => none
              | some v => if v < 1 ∨ v > (N : Int) then none else some v) with
      | none => none
      | some v => readCells N rest (cell + 1) (acc.setD cell v.toNat)

/-- `read_puzzle` (sudoku.c:133-174) over the whitespace-separated token
list: the first token is the size, the rest are the cells; `none` is the
`-1` error return (after which `main` calls `fatal` and never builds a
matrix). -/
def read_puzzle (tokens : List String) : Option (Nat × Array Nat) :=
  match tokens with
  | [] => none
  | tok :: rest =>
    match parse_int tok with
    | none => none
    | some size =>
      if size < 1 ∨ size > kMaxPuzzleSize ∨ ¬ issquare size.toNat then none
      else
        (readCells size.toNat rest 0 (Array.mkArray (size.toNat * size.toNat) 0)).map
          (fun cells => (size.toNat, cells))

/-- `main` (sudoku.c:365-409) after option handling: parse, and only on
success construct the matrix and solve. -/
def run_main (tokens : List String) (fuel : Nat) : Option DLX :=
  match read_puzzle tokens with
  | none => none
  | some (n, p) => some (solve_puzzle n p fuel)


/-! ## Chain walks and the column-selection specification -/

/-- Follow `right` links from `x`, collecting nodes until the root header 0
is reached; `none` if the walk does not reach the root within `fuel`
steps. -/
def rightChain (s : DLX) : Nat → Nat → Option (List Nat)
  | 0, _ => none
  | fuel + 1, x =>
    if x = 0 then some [] else (rightChain s fuel (rd s.right x)).map (x :: ·)

/-- The columns currently linked from the root, in left-to-right scan
order. -/
def rootColumns (s : DLX) : Option (List Nat) :=
  rightChain s (s.left.size + 1) (rd s.right 0)

/-- The accumulator fold mirroring the selection scan over an explicit
list. -/
def selectFold (s : DLX) (L : List Nat) (p : Nat × Int) : Nat × Int :=
  L.foldl (fun p j => if rcOf s j < p.2 then (j, rcOf s j) else p) p

/-- The specification of the claim: `c` is a column of the scan list `L`
of minimum row-count, and it is the first minimum in scan order — every
column scanned before it has a strictly larger row-count. -/
def IsFirstMin (s : DLX) (L : List Nat) (c : Nat) : Prop :=
  c ∈ L ∧ (∀ j ∈ L, rcOf s c ≤ rcOf s j) ∧
  ∃ l1 l2, L = l1 ++ c :: l2 ∧ ∀ j ∈ l1, rcOf s c < rcOf s j

/-- A hand-built three-column state exhibiting a row-count tie between the
second and third columns (counts 3, 2, 2), for the tie-break scenario. -/
def tieState : DLX :=
  { left := Array.mkArray 4 0
    right := #[1, 2, 3, 0]
    up := Array.mkArray 4 0
    down := Array.mkArray 4 0
    colIx := #[0, 1, 2, 3]
    dataIx := Array.mkArray 4 0
    rowCount := #[3, 2, 2]
    rdRow := #[]
    rdCol := #[]
    rdVal := #[]
    size := 3
    ncols := 3
    solution := #[]
    myInit := #[]
    numSolutions := 0
    reported := []
    stuck := false }

/-! ## Definitions for the cover/uncover round-trip (C2) -/

/-- The header splice of `cover_column` (sudoku.c:181-182):
`c->right->left = c->left; c->left->right = c->right;`. -/
def hUnlink (c : Nat) (s : DLX) : DLX :=
  let s1 := { s with left := wr s.left (rd s.right c) (rd s.left c) }
  { s1 with right := wr s1.right (rd s1.left c) (rd s1.right c) }

/-- The header re-splice of `uncover_column` (sudoku.c:200-201):
`c->right->left = c; c->left->right = c;`. -/
def hRelink (c : Nat) (s : DLX) : DLX :=
  let t1 := { s with left := wr s.left (rd s.right c) c }
  { t1 with right := wr t1.right (rd t1.left c) c }

/-- Apply the unlink step to each node of `ops` in order. -/
def unlinkFold (ops : List Nat) (t : DLX) : DLX :=
  ops.foldl (fun u j => unlinkJ j u) t

/-- Apply the relink step to each node of `ops` in order. -/
def relinkFold (ops : List Nat) (t : DLX) : DLX :=
  ops.foldl (fun u j => relinkJ j u) t

/-- Follow the links of array `a` from `x`, collecting visited nodes, until
`stop` is reached; `none` if `stop` is not reached within `fuel` steps. -/
def chainTo (a : Array Nat) (stop : Nat) : Nat → Nat → Option (List Nat)
  | 0, _ => none
  | fuel + 1, x =>
    if x = stop then some [] else (chainTo a stop fuel (rd a x)).map (x :: ·)

/-- Each listed node is properly doubly linked vertically in the state
reached after unlinking its predecessors: the run of unlink steps is
valid, so each one is invertible where it happens. -/
def validSeqB : DLX → List Nat → Bool
  | _, [] => true
  | t, j :: ops =>
    (rd t.up (rd t.down j) == j && rd t.down (rd t.up j) == j) &&
      validSeqB (unlinkJ j t) ops

/-- Well-formedness of a matrix state `s` at a root-linked column `c`, with
`I` the top-to-bottom list of row nodes in `c`'s vertical chain and `J i`
the left-to-right list of the other nodes of `i`'s row: the structural
facts the dancing-links representation guarantees for a built matrix
(consistent doubly-linked cycles, nodes of a row in pairwise different
columns, headers outside the row-node range). -/
structure CoverWF (s : DLX) (c : Nat) (I : List Nat) (J : Nat → List Nat) : Prop where
  size_right : s.right.size = s.left.size
  size_up : s.up.size = s.left.size
  size_down : s.down.size = s.left.size
  size_col : s.colIx.size = s.left.size
  hcT : c < s.left.size
  vert : ∀ x < s.left.size, rd s.up (rd s.down x) = x ∧ rd s.down (rd s.up x) = x
  vrange : ∀ x < s.left.size, rd s.up x < s.left.size ∧ rd s.down x < s.left.size
  closed : ∀ x < s.left.size,
    rd s.colIx (rd s.up x) = rd s.colIx x ∧ rd s.colIx (rd s.down x) = rd s.colIx x
  colc : rd s.colIx c = c
  chainI : chainTo s.down c (s.left.size + 1) (rd s.down c) = some I
  rowsJ : ∀ i ∈ I, chainTo s.right i (s.left.size + 1) (rd s.right i) = some (J i)
  rowinv : ∀ i ∈ I, ∀ x ∈ i :: J i, rd s.left (rd s.right x) = x
  offcol : ∀ i ∈ I, ∀ j ∈ J i, rd s.colIx j ≠ c
  jrange : ∀ i ∈ I, ∀ j ∈ J i, j < s.left.size
  nodup : (I.flatMap J).Nodup
  hlc : rd s.left c ∉ I ++ I.flatMap J
  hrc : rd s.right c ∉ I ++ I.flatMap J
  hcL : rd s.left (rd s.right c) = c
  hcR : rd s.right (rd s.left c) = c

/-- `isPathB a x l stop`: following array `a` from `x` visits exactly the
nodes of `l` in order and then reaches `stop`. -/
def isPathB (a : Array Nat) : Nat → List Nat → Nat → Bool
  | x, [], stop => x == stop
  | x, y :: l, stop => x == y && isPathB a (rd a y) l stop

/-- The invariant maintained while the loops of `cover_column` (and later
`uncover_column`) unlink (relink) row nodes, relative to the original
state `s` and the covered column `c`: the horizontal links and column
pointers are untouched, link values stay in range and in their column,
and the vertical links of column `c`'s own nodes are untouched. -/
def Stable (s u : DLX) (c : Nat) : Prop :=
  u.left = (hUnlink c s).left ∧
  u.right = (hUnlink c s).right ∧
  u.colIx = s.colIx ∧
  u.up.size = s.left.size ∧
  u.down.size = s.left.size ∧
  (∀ y, y < s.left.size → rd s.colIx y = c →
    rd u.down y = rd s.down y ∧ rd u.up y = rd s.up y) ∧
  (∀ y, y < s.left.size → rd u.up y < s.left.size ∧ rd u.down y < s.left.size) ∧
  (∀ y, y < s.left.size →
    rd s.colIx (rd u.up y) = rd s.colIx y ∧ rd s.colIx (rd u.down y) = rd s.colIx y)

/-! ## Frame lemmas: no operation of the search writes the input grid -/

lemma decRC_myInit (c : Nat) (s : DLX) : (decRC c s).myInit = s.myInit := rfl

lemma incRC_myInit (c : Nat) (s : DLX) : (incRC c s).myInit = s.myInit := rfl

lemma unlinkJ_myInit (j : Nat) (s : DLX) : (unlinkJ j s).myInit = s.myInit := rfl

lemma relinkJ_myInit (j : Nat) (s : DLX) : (relinkJ j s).myInit = s.myInit := rfl

lemma coverJLoop_myInit (i : Nat) (fuel j : Nat) (s : DLX) :
    (coverJLoop i fuel j s).myInit = s.myInit := by
  induction fuel generalizing j s with
  | zero => simp [coverJLoop]
  | succ f ih =>
    simp only [coverJLoop]
    split
    · rfl
    · rw [ih, unlinkJ_myInit]

lemma coverILoop_myInit (c : Nat) (fuel i : Nat) (s : DLX) :
    (coverILoop c fuel i s).myInit = s.myInit := by
  induction fuel generalizing i s with
  | zero => simp [coverILoop]
  | succ f ih =>
    simp only [coverILoop]
    split
    · rfl
    · rw [ih, coverJLoop_myInit]

lemma cover_column_myInit (c : Nat) (s : DLX) :
    (cover_column c s).myInit = s.myInit := by
  simp only [cover_column]
  rw [coverILoop_myInit]

lemma uncoverJLoop_myInit (i : Nat) (fuel j : Nat) (s : DLX) :
    (uncoverJLoop i fuel j s).myInit = s.myInit := by
  induction fuel generalizing j s with
  | zero => simp [uncoverJLoop]
  | succ f ih =>
    simp only [uncoverJLoop]
    split
    · rfl
    · rw [ih, relinkJ_myInit]

lemma uncoverILoop_myInit (c : Nat) (fuel i : Nat) (s : DLX) :
    (uncoverILoop c fuel i s).myInit = s.myInit := by
  induction fuel generalizing i s with
  | zero => simp [uncoverILoop]
  | succ f ih =>
    simp only [uncoverILoop]
    split
    · rfl
    · rw [ih, uncoverJLoop_myInit]

lemma uncover_column_myInit (c : Nat) (s : DLX) :
    (uncover_column c s).myInit = s.myInit := by
  simp only [uncover_column]
  rw [uncoverILoop_myInit]

lemma coverOthers_myInit (r : Nat) (fuel j : Nat) (s : DLX) :
    (coverOthers r fuel j s).myInit = s.myInit := by
  induction fuel generalizing j s with
  | zero => simp [coverOthers]
  | succ f ih =>
    simp only [coverOthers]
    split
    · rfl
    · rw [ih, cover_column_myInit]

lemma uncoverOthers_myInit (r : Nat) (fuel j : Nat) (s : DLX) :
    (uncoverOthers r fuel j s).myInit = s.myInit := by
  induction fuel generalizing j s with
  | zero => simp [uncoverOthers]
  | succ f ih =>
    simp only [uncoverOthers]
    split
    · rfl
    · rw [ih, uncover_column_myInit]

lemma recordSolution_myInit (s : DLX) : (recordSolution s).myInit = s.myInit := rfl

lemma rowLoop_myInit (solveF : DLX → DLX)
    (hF : ∀ t, (solveF t).myInit = t.myInit) (c : Nat) (m r : Nat) (s : DLX) :
    (rowLoop solveF c m r s).myInit = s.myInit := by
  induction m generalizing r s with
  | zero => simp [rowLoop]
  | succ m ih =>
    simp only [rowLoop]
    split
    · rfl
    · rw [ih, uncoverOthers_myInit, hF, coverOthers_myInit]

lemma solveStep_myInit (solveF : DLX → DLX)
    (hF : ∀ t, (solveF t).myInit = t.myInit) (s : DLX) :
    (solveStep solveF s).myInit = s.myInit := by
  simp only [solveStep]
  split
  · rw [recordSolution_myInit]
  · rw [uncover_column_myInit, rowLoop_myInit _ hF, cover_column_myInit]

lemma dlx_solve_myInit (fuel : Nat) (s : DLX) :
    (dlx_solve fuel s).myInit = s.myInit := by
  induction fuel generalizing s with
  | zero => simp [dlx_solve]
  | succ f ih => simpa only [dlx_solve] using solveStep_myInit _ (fun t => ih t) s

/-- C9: `solve_puzzle` never writes to the caller's input grid: the search
writes candidate values only into the fresh copy made by `copy_puzzle`
(the `solution` grid), and the `dlx_solve` recursion leaves the `init`
grid of `dlx_params` untouched, so after `solve_puzzle` returns the input
grid holds exactly its pre-call cell values. -/
theorem c9_input_grid_preserved (N : Nat) (p : Array Nat) (fuel : Nat) :
    (solve_puzzle N p fuel).myInit = p ∧
    ∀ s : DLX, (dlx_solve fuel s).myInit = s.myInit := by
  constructor
  · simp only [solve_puzzle]
    rw [dlx_solve_myInit]
  · exact fun s => dlx_solve_myInit fuel s

/-! ## C8: invalid puzzle sizes are rejected before any construction -/

/-- C8: a first token whose integer value is not a positive perfect square
within `kMaxPuzzleSize` makes `read_puzzle` fail (return `none`, the
`-1`/`goto err` path taken at sudoku.c:148-150 before `init_puzzle` runs),
and `main` then never calls `solve_puzzle`, so no matrix node is ever
allocated: `run_main` is `none`. -/
theorem c8_invalid_size_rejected (tok : String) (rest : List String)
    (fuel : Nat) (z : Int) (hp : parse_int tok = some z)
    (hbad : z < 1 ∨ kMaxPuzzleSize < z ∨ issquare z.toNat = false) :
    read_puzzle (tok :: rest) = none ∧ run_main (tok :: rest) fuel = none := by
  have hr : read_puzzle (tok :: rest) = none := by
    simp only [read_puzzle, hp]
    have hc : z < 1 ∨ z > kMaxPuzzleSize ∨ ¬ issquare z.toNat := by
      rcases hbad with h | h | h
      · exact Or.inl h
      · exact Or.inr (Or.inl h)
      · exact Or.inr (Or.inr (by simp [h]))
    rw [if_pos hc]
  exact ⟨hr, by simp [run_main, hr]⟩

/-- Witness for C8 at the spec's Scenario D input: side length 5. -/
theorem c8_witness :
    parse_int "5" = some 5 ∧
    (read_puzzle ["5", "1"] = none ∧ run_main ["5", "1"] 3 = none) :=
  ⟨by decide, c8_invalid_size_rejected "5" ["1"] 3 5 (by decide) (by decide)⟩

/-! ## C4: the selection scan picks the first minimum-count column -/

lemma selectFold_cons (s : DLX) (j : Nat) (L : List Nat) (c : Nat) (m : Int) :
    selectFold s (j :: L) (c, m) =
      selectFold s L (if rcOf s j < m then (j, rcOf s j) else (c, m)) := by
  simp only [selectFold, List.foldl]

lemma selectLoop_eq_selectFold (s : DLX) (fuel x : Nat) (L : List Nat)
    (c : Nat) (m : Int) (h : rightChain s fuel x = some L) :
    selectLoop s fuel x c m = (selectFold s L (c, m)).1 := by
  induction fuel generalizing x L c m with
  | zero => simp [rightChain] at h
  | succ f ih =>
    simp only [rightChain] at h
    by_cases hx : x = 0
    · subst hx
      rw [if_pos rfl] at h
      injection h with h
      subst h
      simp [selectLoop, selectFold]
    · rw [if_neg hx] at h
      obtain ⟨L2, hL2, rfl⟩ := Option.map_eq_some'.mp h
      simp only [selectLoop, if_neg hx, selectFold_cons]
      split
      · exact ih _ _ _ _ hL2
      · exact ih _ _ _ _ hL2

lemma selectFold_const (s : DLX) (L : List Nat) (c : Nat) (m : Int)
    (h : ∀ j ∈ L, m ≤ rcOf s j) : selectFold s L (c, m) = (c, m) := by
  induction L with
  | nil => rfl
  | cons j L ih =>
    rw [selectFold_cons, if_neg (by simpa using h j (by simp))]
    exact ih fun k hk => h k (by simp [hk])

lemma selectFold_min (s : DLX) :
    ∀ (L : List Nat) (c : Nat) (m : Int) (c2 : Nat) (m2 : Int),
    selectFold s L (c, m) = (c2, m2) → (∃ j ∈ L, rcOf s j < m) →
    m2 = rcOf s c2 ∧ c2 ∈ L ∧ (∀ j ∈ L, m2 ≤ rcOf s j) ∧ m2 < m ∧
    ∃ l1 l2, L = l1 ++ c2 :: l2 ∧ ∀ j ∈ l1, m2 < rcOf s j := by
  intro L
  induction L with
  | nil => intro c m c2 m2 _ hex; simp at hex
  | cons j L ih =>
    intro c m c2 m2 hfold hex
    rw [selectFold_cons] at hfold
    by_cases hj : rcOf s j < m
    · rw [if_pos hj] at hfold
      by_cases hall : ∀ k ∈ L, rcOf s j ≤ rcOf s k
      · rw [selectFold_const s L j (rcOf s j) hall] at hfold
        cases hfold
        refine ⟨rfl, by simp, ?_, hj, [], L, rfl, by simp⟩
        intro k hk
        rcases List.mem_cons.mp hk with rfl | hk
        · exact le_refl _
        · exact hall k hk
      · push_neg at hall
        obtain ⟨k, hkL, hk⟩ := hall
        obtain ⟨hm2, hc2, hle, hlt, l1, l2, hsplit, hstrict⟩ :=
          ih j (rcOf s j) c2 m2 hfold ⟨k, hkL, hk⟩
        refine ⟨hm2, by simp [hc2], ?_, lt_trans hlt hj, j :: l1, l2,
          by simp [hsplit], ?_⟩
        · intro n hn
          rcases List.mem_cons.mp hn with rfl | hn
          · exact le_of_lt hlt
          · exact hle n hn
        · intro n hn
          rcases List.mem_cons.mp hn with rfl | hn
          · exact hlt
          · exact hstrict n hn
    · rw [if_neg hj] at hfold
      have hex2 : ∃ k ∈ L, rcOf s k < m := by
        obtain ⟨k, hkL, hk⟩ := hex
        rcases List.mem_cons.mp hkL with rfl | hkL
        · exact absurd hk hj
        · exact ⟨k, hkL, hk⟩
      obtain ⟨hm2, hc2, hle, hlt, l1, l2, hsplit, hstrict⟩ :=
        ih c m c2 m2 hfold hex2
      push_neg at hj
      refine ⟨hm2, by simp [hc2], ?_, hlt, j :: l1, l2, by simp [hsplit], ?_⟩
      · intro n hn
        rcases List.mem_cons.mp hn with rfl | hn
        · exact le_trans (le_of_lt hlt) hj
        · exact hle n hn
      · intro n hn
        rcases List.mem_cons.mp hn with rfl | hn
        · exact lt_of_lt_of_le hlt hj
        · exact hstrict n hn

/-- C4: whenever the root's chain is non-empty (a non-leaf step) and the
live row-counts are at most `size` (so the scan's sentinel `size + 1`
exceeds them all), the column chosen by `dlx_solve`'s scan is one of
minimum row-count among all columns currently linked from the root, and
among equal minima it is the first one encountered in the left-to-right
scan — every column scanned before it has a strictly larger row-count. -/
theorem c4_first_minimum_column (s : DLX) (L : List Nat)
    (hL : rootColumns s = some L) (hne : L ≠ [])
    (hrc : ∀ j ∈ L, rcOf s j ≤ (s.size : Int)) :
    IsFirstMin s L (choose_column s) := by
  obtain ⟨j0, hj0⟩ := List.exists_mem_of_ne_nil L hne
  have hex : ∃ j ∈ L, rcOf s j < (s.size : Int) + 1 :=
    ⟨j0, hj0, lt_of_le_of_lt (hrc j0 hj0) (by omega)⟩
  have hchoose : choose_column s = (selectFold s L (0, (s.size : Int) + 1)).1 := by
    simpa [choose_column] using
      selectLoop_eq_selectFold s (s.left.size + 1) (rd s.right 0) L 0
        ((s.size : Int) + 1) hL
  obtain ⟨hm2, hc2, hle, _, l1, l2, hsplit, hstrict⟩ :=
    selectFold_min s L 0 ((s.size : Int) + 1)
      (selectFold s L (0, (s.size : Int) + 1)).1
      (selectFold s L (0, (s.size : Int) + 1)).2
      Prod.mk.eta.symm hex
  rw [hchoose]
  refine ⟨hc2, ?_, l1, l2, hsplit, ?_⟩
  · intro j hj
    rw [← hm2]
    exact hle j hj
  · intro j hj
    rw [← hm2]
    exact hstrict j hj

/-- Witness for C4 on a state with a row-count tie (counts 3, 2, 2): the
scan picks column 2, the first of the two tied minima, not column 3. -/
theorem c4_witness :
    rootColumns tieState = some [1, 2, 3] ∧ choose_column tieState = 2 ∧
    IsFirstMin tieState [1, 2, 3] (choose_column tieState) :=
  ⟨by decide, by decide,
    c4_first_minimum_column tieState [1, 2, 3] (by decide) (by decide)
      (by decide)⟩

/-! ## Array read/write lemmas -/

lemma size_wr (a : Array Nat) (i v : Nat) : (wr a i v).size = a.size := by
  simp [wr]

lemma wr_of_ge (a : Array Nat) (i v : Nat) (h : a.size ≤ i) : wr a i v = a := by
  simp [wr, Array.setD, Nat.not_lt_of_le h]

lemma rd_wr (a : Array Nat) (i v k : Nat) :
    rd (wr a i v) k = if k = i ∧ i < a.size then v else rd a k := by
  by_cases hi : i < a.size
  · have hset : wr a i v = a.set ⟨i, hi⟩ v := by simp [wr, Array.setD, hi]
    rw [hset]
    by_cases hk : k = i
    · subst hk
      simp only [rd, Array.getD_eq_get?]
      have hlt : k < (a.set ⟨k, hi⟩ v).size := by simp [hi]
      rw [Array.getElem?_lt _ hlt, Option.getD_some, Array.getElem_set_eq _ _ _ rfl]
      simp [hi]
    · have hne : (⟨i, hi⟩ : Fin a.size).val ≠ k := fun hcon => hk (by simpa using hcon.symm)
      simp [rd, Array.getD_eq_get?, Array.getElem?_set_ne _ _ _ hne, hk]
  · rw [wr_of_ge a i v (Nat.le_of_not_lt hi)]
    simp [hi]

lemma array_ext_rd (a b : Array Nat) (hsz : a.size = b.size)
    (h : ∀ k, rd a k = rd b k) : a = b := by
  apply Array.ext a b hsz
  intro i h1 h2
  have hk := h i
  rw [rd, rd, Array.getD_eq_get?, Array.getD_eq_get?,
    Array.getElem?_lt _ h1, Array.getElem?_lt _ h2] at hk
  simpa using hk

lemma wr_rd_same (a : Array Nat) (i : Nat) (v : Nat) (h : rd a i = v) :
    wr a i v = a := by
  apply array_ext_rd _ _ (size_wr a i v)
  intro k
  rw [rd_wr]
  split
  · next hc => rw [hc.1, ← h]
  · rfl

lemma wr_wr (a : Array Nat) (i v w : Nat) : wr (wr a i v) i w = wr a i w := by
  apply array_ext_rd _ _ (by rw [size_wr, size_wr, size_wr])
  intro k
  by_cases hc : k = i ∧ i < a.size
  · simp [rd_wr, size_wr, hc]
  · simp [rd_wr, size_wr, hc]

lemma rdI_setD (a : Array Int) (i : Nat) (v : Int) (k : Nat) :
    rdI (a.setD i v) k = if k = i ∧ i < a.size then v else rdI a k := by
  by_cases hi : i < a.size
  · have hset : a.setD i v = a.set ⟨i, hi⟩ v := by simp [Array.setD, hi]
    rw [hset]
    by_cases hk : k = i
    · subst hk
      simp only [rdI, Array.getD_eq_get?]
      have hlt : k < (a.set ⟨k, hi⟩ v).size := by simp [hi]
      rw [Array.getElem?_lt _ hlt, Option.getD_some, Array.getElem_set_eq _ _ _ rfl]
      simp [hi]
    · have hne : (⟨i, hi⟩ : Fin a.size).val ≠ k := fun hcon => hk (by simpa using hcon.symm)
      simp [rdI, Array.getD_eq_get?, Array.getElem?_set_ne _ _ _ hne, hk]
  · have : a.setD i v = a := by simp [Array.setD, Nat.not_lt_of_le (Nat.le_of_not_lt hi)]
    rw [this]
    simp [hi]

lemma arrayI_ext_rd (a b : Array Int) (hsz : a.size = b.size)
    (h : ∀ k, rdI a k = rdI b k) : a = b := by
  apply Array.ext a b hsz
  intro i h1 h2
  have hk := h i
  rw [rdI, rdI, Array.getD_eq_get?, Array.getD_eq_get?,
    Array.getElem?_lt _ h1, Array.getElem?_lt _ h2] at hk
  simpa using hk

lemma size_setD_int (a : Array Int) (i : Nat) (v : Int) : (a.setD i v).size = a.size := by
  simp

lemma setD_setD (a : Array Int) (i : Nat) (v w : Int) :
    (a.setD i v).setD i w = a.setD i w := by
  apply arrayI_ext_rd _ _ (by simp)
  intro k
  by_cases hc : k = i ∧ i < a.size
  · simp [rdI_setD, hc]
  · simp [rdI_setD, hc]

lemma setD_rdI_same (a : Array Int) (i : Nat) (v : Int) (h : rdI a i = v) :
    a.setD i v = a := by
  apply arrayI_ext_rd _ _ (by simp)
  intro k
  rw [rdI_setD]
  split
  · next hc => rw [hc.1, ← h]
  · rfl


/-! ## The unlink/relink pairing and telescoping -/

lemma unlinkJ_eq (j : Nat) (s : DLX) :
    unlinkJ j s = { s with
      up := wr s.up (rd s.down j) (rd s.up j)
      down := wr s.down (rd s.up j) (rd s.down j)
      rowCount := s.rowCount.setD (rd s.colIx j - 1)
        (rdI s.rowCount (rd s.colIx j - 1) - 1) } := by
  have h1 : rd (wr s.up (rd s.down j) (rd s.up j)) j = rd s.up j := by
    rw [rd_wr]; split <;> rfl
  simp only [unlinkJ, decRC, h1]

lemma unlinkFold_cons (j : Nat) (l : List Nat) (t : DLX) :
    unlinkFold (j :: l) t = unlinkFold l (unlinkJ j t) := rfl

lemma unlinkFold_nil (t : DLX) : unlinkFold [] t = t := rfl

lemma relinkFold_append (l1 l2 : List Nat) (t : DLX) :
    relinkFold (l1 ++ l2) t = relinkFold l2 (relinkFold l1 t) := by
  simp [relinkFold, List.foldl_append]

lemma relinkFold_single (j : Nat) (t : DLX) : relinkFold [j] t = relinkJ j t := rfl

lemma relink_unlink (t : DLX) (j : Nat)
    (hu : rd t.up (rd t.down j) = j) (hd : rd t.down (rd t.up j) = j) :
    relinkJ j (unlinkJ j t) = t := by
  rw [unlinkJ_eq]
  simp only [relinkJ, incRC]
  have hdown1 : rd (wr t.down (rd t.up j) (rd t.down j)) j = rd t.down j := by
    rw [rd_wr]; split <;> rfl
  have hupfix : wr (wr t.up (rd t.down j) (rd t.up j)) (rd t.down j) j = t.up := by
    rw [wr_wr]; exact wr_rd_same _ _ _ hu
  have hup2 : rd (wr (wr t.up (rd t.down j) (rd t.up j)) (rd t.down j) j) j
      = rd t.up j := by
    rw [hupfix]
  have hdownfix : wr (wr t.down (rd t.up j) (rd t.down j)) (rd t.up j) j = t.down := by
    rw [wr_wr]; exact wr_rd_same _ _ _ hd
  have hrcfix : ∀ (k : Nat),
      (t.rowCount.setD k (rdI t.rowCount k - 1)).setD k
        (rdI (t.rowCount.setD k (rdI t.rowCount k - 1)) k + 1) = t.rowCount := by
    intro k
    by_cases hk : k < t.rowCount.size
    · rw [rdI_setD, if_pos ⟨rfl, hk⟩, setD_setD]
      have : rdI t.rowCount k - 1 + 1 = rdI t.rowCount k := by ring
      rw [this]
      exact setD_rdI_same _ _ _ rfl
    · have hnl := Nat.not_lt_of_le (Nat.le_of_not_lt hk)
      simp [Array.setD, hnl]
  simp only [hdown1, hup2, hupfix, hdownfix, hrcfix]

lemma tele (ops : List Nat) : ∀ t : DLX, validSeqB t ops = true →
    relinkFold ops.reverse (unlinkFold ops t) = t := by
  induction ops with
  | nil => intro t _; rfl
  | cons j rest ih =>
    intro t hv
    simp only [validSeqB, Bool.and_eq_true, beq_iff_eq] at hv
    obtain ⟨⟨hu, hd⟩, hrest⟩ := hv
    rw [unlinkFold_cons, List.reverse_cons, relinkFold_append, ih _ hrest,
      relinkFold_single, relink_unlink t j hu hd]


/-! ## Establishing a valid unlink sequence -/

lemma properV_unlink (t : DLX) (j x : Nat)
    (hju : rd t.up (rd t.down j) = j) (hjd : rd t.down (rd t.up j) = j)
    (hxu : rd t.up (rd t.down x) = x) (hxd : rd t.down (rd t.up x) = x)
    (hne : x ≠ j)
    (hDr : rd t.down j < t.up.size) (hUr : rd t.up j < t.down.size) :
    rd (unlinkJ j t).up (rd (unlinkJ j t).down x) = x ∧
    rd (unlinkJ j t).down (rd (unlinkJ j t).up x) = x := by
  rw [unlinkJ_eq]
  constructor
  · show rd (wr t.up (rd t.down j) (rd t.up j))
      (rd (wr t.down (rd t.up j) (rd t.down j)) x) = x
    rw [rd_wr t.down (rd t.up j) (rd t.down j) x]
    split
    · next hc =>
      rw [rd_wr]
      rw [if_pos ⟨rfl, hDr⟩]
      rw [hc.1, ← hjd]
    · rw [rd_wr]
      split
      · next hc2 =>
        exfalso
        apply hne
        rw [← hxu, hc2.1, hju]
      · exact hxu
  · show rd (wr t.down (rd t.up j) (rd t.down j))
      (rd (wr t.up (rd t.down j) (rd t.up j)) x) = x
    rw [rd_wr t.up (rd t.down j) (rd t.up j) x]
    split
    · next hc =>
      rw [rd_wr]
      rw [if_pos ⟨rfl, hUr⟩]
      rw [hc.1, ← hju]
    · rw [rd_wr]
      split
      · next hc2 =>
        exfalso
        apply hne
        rw [← hxd, hc2.1, hjd]
      · exact hxd

lemma unlinkJ_up_size (j : Nat) (t : DLX) : (unlinkJ j t).up.size = t.up.size := by
  rw [unlinkJ_eq]; exact size_wr _ _ _

lemma unlinkJ_down_size (j : Nat) (t : DLX) : (unlinkJ j t).down.size = t.down.size := by
  rw [unlinkJ_eq]; exact size_wr _ _ _

lemma validSeq_establish : ∀ (ops : List Nat) (t : DLX),
    (∀ x ∈ ops, rd t.up (rd t.down x) = x ∧ rd t.down (rd t.up x) = x) →
    (∀ x ∈ ops, rd t.down x < t.up.size ∧ rd t.up x < t.down.size) →
    ops.Nodup →
    validSeqB t ops = true := by
  intro ops
  induction ops with
  | nil => intro t _ _ _; rfl
  | cons j rest ih =>
    intro t hp hr hnd
    simp only [validSeqB, Bool.and_eq_true, beq_iff_eq]
    obtain ⟨hju, hjd⟩ := hp j (by simp)
    obtain ⟨hDr, hUr⟩ := hr j (by simp)
    refine ⟨⟨hju, hjd⟩, ih (unlinkJ j t) ?_ ?_ (List.Nodup.of_cons hnd)⟩
    · intro x hx
      have hne : x ≠ j := by
        rintro rfl
        exact (List.nodup_cons.mp hnd).1 hx
      exact properV_unlink t j x hju hjd (hp x (by simp [hx])).1 (hp x (by simp [hx])).2
        hne hDr hUr
    · intro x hx
      obtain ⟨hxD, hxU⟩ := hr x (by simp [hx])
      rw [unlinkJ_up_size, unlinkJ_down_size]
      constructor
      · rw [unlinkJ_eq]
        show rd (wr t.down (rd t.up j) (rd t.down j)) x < t.up.size
        rw [rd_wr]
        split
        · exact hDr
        · exact hxD
      · rw [unlinkJ_eq]
        show rd (wr t.up (rd t.down j) (rd t.up j)) x < t.down.size
        rw [rd_wr]
        split
        · exact hUr
        · exact hxU

/-! ## Walk lemmas -/

lemma chainTo_isPath : ∀ (f : Nat) (a : Array Nat) (stop x : Nat) (l : List Nat),
    chainTo a stop f x = some l →
    isPathB a x l stop = true ∧ (∀ y ∈ l, y ≠ stop) ∧ l.length < f := by
  intro f
  induction f with
  | zero => intro a stop x l h; simp [chainTo] at h
  | succ f ih =>
    intro a stop x l h
    simp only [chainTo] at h
    by_cases hx : x = stop
    · rw [if_pos hx] at h
      injection h with h
      subst h
      simp [isPathB, hx]
    · rw [if_neg hx] at h
      obtain ⟨l2, hl2, rfl⟩ := Option.map_eq_some'.mp h
      obtain ⟨h1, h2, h3⟩ := ih a stop (rd a x) l2 hl2
      refine ⟨by simp [isPathB, h1], ?_, by simpa using h3⟩
      intro y hy
      rcases List.mem_cons.mp hy with rfl | hy
      · exact hx
      · exact h2 y hy

lemma isPath_chainTo : ∀ (l : List Nat) (a : Array Nat) (stop x f : Nat),
    isPathB a x l stop = true → (∀ y ∈ l, y ≠ stop) → l.length < f →
    chainTo a stop f x = some l := by
  intro l
  induction l with
  | nil =>
    intro a stop x f h _ hf
    simp only [isPathB, beq_iff_eq] at h
    obtain ⟨f, rfl⟩ := Nat.exists_eq_succ_of_ne_zero (Nat.pos_iff_ne_zero.mp hf)
    simp [chainTo, h]
  | cons y l ih =>
    intro a stop x f h hne hf
    simp only [isPathB, Bool.and_eq_true, beq_iff_eq] at h
    obtain ⟨rfl, hrest⟩ := h
    obtain ⟨f, rfl⟩ := Nat.exists_eq_succ_of_ne_zero (by omega : f ≠ 0)
    have hy : x ≠ stop := hne x (by simp)
    simp only [chainTo, if_neg hy]
    rw [ih a stop (rd a x) f hrest (fun z hz => hne z (by simp [hz])) (by simpa using hf)]
    rfl

lemma isPath_snoc : ∀ (l : List Nat) (a : Array Nat) (x y stop : Nat),
    isPathB a x (l ++ [y]) stop = (isPathB a x l y && (rd a y == stop)) := by
  intro l
  induction l with
  | nil => intro a x y stop; simp [isPathB]
  | cons z l ih =>
    intro a x y stop
    show (x == z && isPathB a (rd a z) (l ++ [y]) stop) = _
    rw [ih]
    show _ = ((x == z && isPathB a (rd a z) l y) && (rd a y == stop))
    rw [Bool.and_assoc]

lemma isPath_reverse (b : Array Nat) :
    ∀ (l : List Nat) (a : Array Nat) (x e p : Nat),
    isPathB a x l e = true → (∀ y ∈ l, rd b (rd a y) = y) → rd b x = p →
    isPathB b (rd b e) l.reverse p = true := by
  intro l
  induction l with
  | nil =>
    intro a x e p h hinv hbx
    simp only [isPathB, beq_iff_eq] at h
    subst h
    simp [isPathB, hbx]
  | cons y l ih =>
    intro a x e p h hinv hbx
    simp only [isPathB, Bool.and_eq_true, beq_iff_eq] at h
    obtain ⟨rfl, hrest⟩ := h
    have hIH := ih a (rd a x) e x hrest (fun z hz => hinv z (by simp [hz]))
      (hinv x (by simp))
    simp only [List.reverse_cons, isPath_snoc, Bool.and_eq_true, beq_iff_eq]
    exact ⟨hIH, hbx⟩

lemma chainTo_mem_lt (a : Array Nat) (stop T : Nat)
    (hT : ∀ z, z < T → rd a z < T) :
    ∀ (f x : Nat) (l : List Nat), chainTo a stop f x = some l → x < T →
    ∀ y ∈ l, y < T := by
  intro f
  induction f with
  | zero => intro x l h; simp [chainTo] at h
  | succ f ih =>
    intro x l h hx
    simp only [chainTo] at h
    by_cases hxs : x = stop
    · rw [if_pos hxs] at h
      injection h with h
      subst h
      simp
    · rw [if_neg hxs] at h
      obtain ⟨l2, hl2, rfl⟩ := Option.map_eq_some'.mp h
      intro y hy
      rcases List.mem_cons.mp hy with rfl | hy
      · exact hx
      · exact ih (rd a x) l2 hl2 (hT x hx) y hy

lemma chainTo_mem_colIx (s : DLX) (c : Nat) (T : Nat)
    (hT : ∀ z, z < T → rd s.down z < T)
    (hclosed : ∀ z, z < T → rd s.colIx (rd s.down z) = rd s.colIx z) :
    ∀ (f x : Nat) (l : List Nat), chainTo s.down c f x = some l →
    x < T → rd s.colIx x = c → ∀ y ∈ l, rd s.colIx y = c := by
  intro f
  induction f with
  | zero => intro x l h; simp [chainTo] at h
  | succ f ih =>
    intro x l h hx hcx
    simp only [chainTo] at h
    by_cases hxs : x = c
    · rw [if_pos hxs] at h
      injection h with h
      subst h
      simp
    · rw [if_neg hxs] at h
      obtain ⟨l2, hl2, rfl⟩ := Option.map_eq_some'.mp h
      intro y hy
      rcases List.mem_cons.mp hy with rfl | hy
      · exact hcx
      · exact ih (rd s.down x) l2 hl2 (hT x hx) (by rw [hclosed x hx, hcx]) y hy


/-! ## Stability of the cover loops -/

lemma unlinkJ_left (j : Nat) (t : DLX) : (unlinkJ j t).left = t.left := by
  rw [unlinkJ_eq]

lemma unlinkJ_right (j : Nat) (t : DLX) : (unlinkJ j t).right = t.right := by
  rw [unlinkJ_eq]

lemma unlinkJ_colIx (j : Nat) (t : DLX) : (unlinkJ j t).colIx = t.colIx := by
  rw [unlinkJ_eq]

lemma unlinkFold_append (l1 l2 : List Nat) (t : DLX) :
    unlinkFold (l1 ++ l2) t = unlinkFold l2 (unlinkFold l1 t) := by
  simp [unlinkFold, List.foldl_append]

lemma hUnlink_left (c : Nat) (s : DLX) :
    (hUnlink c s).left = wr s.left (rd s.right c) (rd s.left c) := rfl

lemma hUnlink_right (c : Nat) (s : DLX) :
    (hUnlink c s).right = wr s.right (rd s.left c) (rd s.right c) := by
  have h1 : rd (wr s.left (rd s.right c) (rd s.left c)) c = rd s.left c := by
    rw [rd_wr]; split <;> rfl
  simp only [hUnlink, h1]

lemma hUnlink_up (c : Nat) (s : DLX) : (hUnlink c s).up = s.up := rfl

lemma hUnlink_down (c : Nat) (s : DLX) : (hUnlink c s).down = s.down := rfl

lemma hUnlink_colIx (c : Nat) (s : DLX) : (hUnlink c s).colIx = s.colIx := rfl

lemma rd_hUnlink_right (c x : Nat) (s : DLX) (hx : x ≠ rd s.left c) :
    rd (hUnlink c s).right x = rd s.right x := by
  rw [hUnlink_right, rd_wr]
  simp [hx]

lemma rd_hUnlink_left (c x : Nat) (s : DLX) (hx : x ≠ rd s.right c) :
    rd (hUnlink c s).left x = rd s.left x := by
  rw [hUnlink_left, rd_wr]
  simp [hx]

lemma stable_unlinkJ (s u : DLX) (c j : Nat) (hst : Stable s u c)
    (hjT : j < s.left.size) (hcj : rd s.colIx j ≠ c) :
    Stable s (unlinkJ j u) c := by
  obtain ⟨hl, hr, hci, hus, hds, hstab, hrng, hcl⟩ := hst
  obtain ⟨hclu, hcld⟩ := hcl j hjT
  obtain ⟨hru, hrdn⟩ := hrng j hjT
  refine ⟨by rw [unlinkJ_left, hl], by rw [unlinkJ_right, hr],
    by rw [unlinkJ_colIx, hci], ?_, ?_, ?_, ?_, ?_⟩
  · rw [unlinkJ_eq]
    show (wr u.up _ _).size = _
    rw [size_wr, hus]
  · rw [unlinkJ_eq]
    show (wr u.down _ _).size = _
    rw [size_wr, hds]
  · intro y hy hcy
    obtain ⟨hsd, hsu⟩ := hstab y hy hcy
    rw [unlinkJ_eq]
    constructor
    · show rd (wr u.down (rd u.up j) (rd u.down j)) y = rd s.down y
      rw [rd_wr]
      split
      · next hc =>
        exfalso
        apply hcj
        rw [← hclu, ← hc.1, hcy]
      · exact hsd
    · show rd (wr u.up (rd u.down j) (rd u.up j)) y = rd s.up y
      rw [rd_wr]
      split
      · next hc =>
        exfalso
        apply hcj
        rw [← hcld, ← hc.1, hcy]
      · exact hsu
  · intro y hy
    rw [unlinkJ_eq]
    constructor
    · show rd (wr u.up (rd u.down j) (rd u.up j)) y < s.left.size
      rw [rd_wr]
      split
      · exact hru
      · exact (hrng y hy).1
    · show rd (wr u.down (rd u.up j) (rd u.down j)) y < s.left.size
      rw [rd_wr]
      split
      · exact hrdn
      · exact (hrng y hy).2
  · intro y hy
    rw [unlinkJ_eq]
    constructor
    · show rd s.colIx (rd (wr u.up (rd u.down j) (rd u.up j)) y) = rd s.colIx y
      rw [rd_wr]
      split
      · next hc =>
        rw [hclu, ← hcld, ← hc.1]
      · exact (hcl y hy).1
    · show rd s.colIx (rd (wr u.down (rd u.up j) (rd u.down j)) y) = rd s.colIx y
      rw [rd_wr]
      split
      · next hc =>
        rw [hcld, ← hclu, ← hc.1]
      · exact (hcl y hy).2


/-! ## The cover loops compute an unlink fold -/

lemma coverWF_I_lt (s : DLX) (c : Nat) (I : List Nat) (J : Nat → List Nat)
    (hw : CoverWF s c I J) : ∀ i ∈ I, i < s.left.size :=
  chainTo_mem_lt s.down c s.left.size (fun z hz => (hw.vrange z hz).2)
    (s.left.size + 1) (rd s.down c) I hw.chainI (hw.vrange c hw.hcT).2

lemma coverWF_I_col (s : DLX) (c : Nat) (I : List Nat) (J : Nat → List Nat)
    (hw : CoverWF s c I J) : ∀ i ∈ I, rd s.colIx i = c :=
  chainTo_mem_colIx s c s.left.size (fun z hz => (hw.vrange z hz).2)
    (fun z hz => (hw.closed z hz).2) (s.left.size + 1) (rd s.down c) I hw.chainI
    (hw.vrange c hw.hcT).2 (by rw [(hw.closed c hw.hcT).2, hw.colc])

lemma cover_fold_J (s : DLX) (c : Nat) (I : List Nat) (J : Nat → List Nat)
    (hw : CoverWF s c I J) (i : Nat) (hi : i ∈ I) :
    ∀ (Jsuf : List Nat) (y fuel : Nat) (u : DLX),
    isPathB s.right y Jsuf i = true →
    (∀ j ∈ Jsuf, j ≠ i) →
    (∀ j ∈ Jsuf, j ∈ J i) →
    Jsuf.length < fuel →
    Stable s u c →
    coverJLoop i fuel y u = unlinkFold Jsuf u ∧ Stable s (unlinkFold Jsuf u) c := by
  intro Jsuf
  induction Jsuf with
  | nil =>
    intro y fuel u hp _ _ hf hst
    simp only [isPathB, beq_iff_eq] at hp
    subst hp
    obtain ⟨f, rfl⟩ := Nat.exists_eq_succ_of_ne_zero (by omega : fuel ≠ 0)
    refine ⟨by simp [coverJLoop, unlinkFold, List.foldl], ?_⟩
    simpa [unlinkFold, List.foldl] using hst
  | cons j rest ih =>
    intro y fuel u hp hne hmem hf hst
    simp only [isPathB, Bool.and_eq_true, beq_iff_eq] at hp
    obtain ⟨rfl, hrest⟩ := hp
    obtain ⟨f, rfl⟩ := Nat.exists_eq_succ_of_ne_zero (by omega : fuel ≠ 0)
    have hji : y ≠ i := hne y (by simp)
    have hjJ : y ∈ J i := hmem y (by simp)
    have hjT : y < s.left.size := hw.jrange i hi y hjJ
    have hcj : rd s.colIx y ≠ c := hw.offcol i hi y hjJ
    have hst2 := stable_unlinkJ s u c y hst hjT hcj
    have hjlc : y ≠ rd s.left c := by
      intro hcon
      apply hw.hlc
      rw [← hcon]
      exact List.mem_append.mpr (Or.inr (List.mem_flatMap.mpr ⟨i, hi, hjJ⟩))
    have hnext : rd (unlinkJ y u).right y = rd s.right y := by
      rw [unlinkJ_right, hst.2.1, rd_hUnlink_right c y s hjlc]
    simp only [coverJLoop, if_neg hji]
    rw [hnext, unlinkFold_cons]
    exact ih (rd s.right y) f (unlinkJ y u) hrest (fun z hz => hne z (by simp [hz]))
      (fun z hz => hmem z (by simp [hz])) (by simpa using hf) hst2

lemma cover_fold_I (s : DLX) (c : Nat) (I : List Nat) (J : Nat → List Nat)
    (hw : CoverWF s c I J) :
    ∀ (Isuf : List Nat) (x fuel : Nat) (u : DLX),
    isPathB s.down x Isuf c = true →
    (∀ i ∈ Isuf, i ≠ c) →
    (∀ i ∈ Isuf, i ∈ I) →
    Isuf.length < fuel →
    Stable s u c →
    coverILoop c fuel x u = unlinkFold (Isuf.flatMap J) u ∧
      Stable s (unlinkFold (Isuf.flatMap J) u) c := by
  intro Isuf
  induction Isuf with
  | nil =>
    intro x fuel u hp _ _ hf hst
    simp only [isPathB, beq_iff_eq] at hp
    subst hp
    obtain ⟨f, rfl⟩ := Nat.exists_eq_succ_of_ne_zero (by omega : fuel ≠ 0)
    refine ⟨by simp [coverILoop, unlinkFold, List.foldl], ?_⟩
    simpa [unlinkFold, List.foldl] using hst
  | cons i rest ih =>
    intro x fuel u hp hne hmem hf hst
    simp only [isPathB, Bool.and_eq_true, beq_iff_eq] at hp
    obtain ⟨rfl, hrest⟩ := hp
    obtain ⟨f, rfl⟩ := Nat.exists_eq_succ_of_ne_zero (by omega : fuel ≠ 0)
    have hic : x ≠ c := hne x (by simp)
    have hiI : x ∈ I := hmem x (by simp)
    have hiT : x < s.left.size := coverWF_I_lt s c I J hw x hiI
    have hicol : rd s.colIx x = c := coverWF_I_col s c I J hw x hiI
    have hxlc : x ≠ rd s.left c := by
      intro hcon
      apply hw.hlc
      rw [← hcon]
      exact List.mem_append.mpr (Or.inl hiI)
    -- the inner fuel is u.left.size + 1 = s.left.size + 1
    have hlsize : u.left.size = s.left.size := by
      rw [hst.1, hUnlink_left, size_wr]
    -- inner walk data
    obtain ⟨hjp, hjne, hjlen⟩ := chainTo_isPath (s.left.size + 1) s.right x
      (rd s.right x) (J x) (hw.rowsJ x hiI)
    have hstartj : rd u.right x = rd s.right x := by
      rw [hst.2.1, rd_hUnlink_right c x s hxlc]
    simp only [coverILoop, if_neg hic]
    rw [hlsize, hstartj]
    obtain ⟨hJrun, hstJ⟩ := cover_fold_J s c I J hw x hiI (J x) (rd s.right x)
      (s.left.size + 1) u hjp hjne (fun z hz => hz) (by omega) hst
    rw [hJrun]
    -- continue: next node read from the state after row x is unlinked
    have hnext : rd (unlinkFold (J x) u).down x = rd s.down x := by
      exact ((hstJ.2.2.2.2.2.1) x hiT hicol).1
    rw [hnext]
    obtain ⟨hIrun, hstI⟩ := ih (rd s.down x) f (unlinkFold (J x) u) hrest
      (fun z hz => hne z (by simp [hz])) (fun z hz => hmem z (by simp [hz]))
      (by simpa using hf) hstJ
    rw [hIrun]
    constructor
    · rw [List.flatMap_cons, unlinkFold_append]
    · rw [List.flatMap_cons, unlinkFold_append]
      exact hstI


/-! ## Assembling `cover_column` and the relink mirror -/

lemma cover_column_fold (s : DLX) (c : Nat) (I : List Nat) (J : Nat → List Nat)
    (hw : CoverWF s c I J) :
    cover_column c s = unlinkFold (I.flatMap J) (hUnlink c s) ∧
    Stable s (cover_column c s) c := by
  have hrfl : cover_column c s =
      coverILoop c ((hUnlink c s).left.size + 1) (rd (hUnlink c s).down c)
        (hUnlink c s) := rfl
  have hsz : (hUnlink c s).left.size = s.left.size := by rw [hUnlink_left, size_wr]
  have hbase : Stable s (hUnlink c s) c := by
    refine ⟨rfl, rfl, rfl, ?_, ?_, ?_, ?_, ?_⟩
    · rw [hUnlink_up]; exact hw.size_up
    · rw [hUnlink_down]; exact hw.size_down
    · intro y _ _
      rw [hUnlink_down, hUnlink_up]
      exact ⟨rfl, rfl⟩
    · intro y hy
      rw [hUnlink_up, hUnlink_down]
      exact hw.vrange y hy
    · intro y hy
      rw [hUnlink_up, hUnlink_down]
      exact hw.closed y hy
  obtain ⟨hp, hne, hlen⟩ := chainTo_isPath _ _ _ _ _ hw.chainI
  have hmain := cover_fold_I s c I J hw I (rd s.down c) (s.left.size + 1)
    (hUnlink c s) hp hne (fun z hz => hz) (by omega) hbase
  rw [hrfl, hsz, hUnlink_down]
  exact ⟨hmain.1, by rw [hmain.1]; exact hmain.2⟩

lemma relinkJ_eq (j : Nat) (s : DLX) :
    relinkJ j s = { s with
      rowCount := s.rowCount.setD (rd s.colIx j - 1)
        (rdI s.rowCount (rd s.colIx j - 1) + 1)
      up := wr s.up (rd s.down j) j
      down := wr s.down (rd (wr s.up (rd s.down j) j) j) j } := rfl

lemma relinkJ_left (j : Nat) (t : DLX) : (relinkJ j t).left = t.left := rfl

lemma relinkJ_right (j : Nat) (t : DLX) : (relinkJ j t).right = t.right := rfl

lemma relinkJ_colIx (j : Nat) (t : DLX) : (relinkJ j t).colIx = t.colIx := rfl

lemma relinkFold_cons (j : Nat) (l : List Nat) (t : DLX) :
    relinkFold (j :: l) t = relinkFold l (relinkJ j t) := rfl

lemma stable_relinkJ (s u : DLX) (c j : Nat) (hst : Stable s u c)
    (hjT : j < s.left.size) (hcj : rd s.colIx j ≠ c) :
    Stable s (relinkJ j u) c := by
  obtain ⟨hl, hr, hci, hus, hds, hstab, hrng, hcl⟩ := hst
  obtain ⟨hclu, hcld⟩ := hcl j hjT
  obtain ⟨hru, hrdn⟩ := hrng j hjT
  -- the down-write lands at the (possibly rewritten) up of j; either way its
  -- column is j's column
  have hX : rd (wr u.up (rd u.down j) j) j = j ∨
      rd (wr u.up (rd u.down j) j) j = rd u.up j := by
    rw [rd_wr]
    split
    · exact Or.inl rfl
    · exact Or.inr rfl
  have hXT : rd (wr u.up (rd u.down j) j) j < s.left.size := by
    rcases hX with h | h <;> rw [h]
    · exact hjT
    · exact hru
  have hXcol : rd s.colIx (rd (wr u.up (rd u.down j) j) j) = rd s.colIx j := by
    rcases hX with h | h <;> rw [h]
    · exact hclu
  refine ⟨by rw [relinkJ_left, hl], by rw [relinkJ_right, hr],
    by rw [relinkJ_colIx, hci], ?_, ?_, ?_, ?_, ?_⟩
  · rw [relinkJ_eq]
    show (wr u.up _ _).size = _
    rw [size_wr, hus]
  · rw [relinkJ_eq]
    show (wr u.down _ _).size = _
    rw [size_wr, hds]
  · intro y hy hcy
    obtain ⟨hsd, hsu⟩ := hstab y hy hcy
    rw [relinkJ_eq]
    constructor
    · show rd (wr u.down (rd (wr u.up (rd u.down j) j) j) j) y = rd s.down y
      rw [rd_wr]
      split
      · next hc =>
        exfalso
        apply hcj
        rw [← hXcol, ← hc.1, hcy]
      · exact hsd
    · show rd (wr u.up (rd u.down j) j) y = rd s.up y
      rw [rd_wr]
      split
      · next hc =>
        exfalso
        apply hcj
        rw [← hcld, ← hc.1, hcy]
      · exact hsu
  · intro y hy
    rw [relinkJ_eq]
    constructor
    · show rd (wr u.up (rd u.down j) j) y < s.left.size
      rw [rd_wr]
      split
      · exact hjT
      · exact (hrng y hy).1
    · show rd (wr u.down (rd (wr u.up (rd u.down j) j) j) j) y < s.left.size
      rw [rd_wr]
      split
      · exact hjT
      · exact (hrng y hy).2
  · intro y hy
    rw [relinkJ_eq]
    constructor
    · show rd s.colIx (rd (wr u.up (rd u.down j) j) y) = rd s.colIx y
      rw [rd_wr]
      split
      · next hc =>
        rw [← hcld, ← hc.1]
      · exact (hcl y hy).1
    · show rd s.colIx (rd (wr u.down (rd (wr u.up (rd u.down j) j) j) j) y)
        = rd s.colIx y
      rw [rd_wr]
      split
      · next hc =>
        rw [← hXcol, ← hc.1]
      · exact (hcl y hy).2

lemma flatMap_reverse (l : List Nat) (f : Nat → List Nat) :
    (l.reverse).flatMap (fun x => (f x).reverse) = (l.flatMap f).reverse := by
  induction l with
  | nil => rfl
  | cons a l ih =>
    simp only [List.reverse_cons, List.flatMap_append, List.flatMap_cons,
      List.flatMap_nil, List.append_nil, ih]
    rw [List.reverse_append]


/-! ## The uncover loops compute the reverse relink fold -/

lemma uncover_fold_J (s : DLX) (c : Nat) (I : List Nat) (J : Nat → List Nat)
    (hw : CoverWF s c I J) (i : Nat) (hi : i ∈ I) :
    ∀ (Jr : List Nat) (y fuel : Nat) (u : DLX),
    isPathB s.left y Jr i = true →
    (∀ j ∈ Jr, j ≠ i) →
    (∀ j ∈ Jr, j ∈ J i) →
    Jr.length < fuel →
    Stable s u c →
    uncoverJLoop i fuel y u = relinkFold Jr u ∧ Stable s (relinkFold Jr u) c := by
  intro Jr
  induction Jr with
  | nil =>
    intro y fuel u hp _ _ hf hst
    simp only [isPathB, beq_iff_eq] at hp
    subst hp
    obtain ⟨f, rfl⟩ := Nat.exists_eq_succ_of_ne_zero (by omega : fuel ≠ 0)
    refine ⟨by simp [uncoverJLoop, relinkFold, List.foldl], ?_⟩
    simpa [relinkFold, List.foldl] using hst
  | cons j rest ih =>
    intro y fuel u hp hne hmem hf hst
    simp only [isPathB, Bool.and_eq_true, beq_iff_eq] at hp
    obtain ⟨rfl, hrest⟩ := hp
    obtain ⟨f, rfl⟩ := Nat.exists_eq_succ_of_ne_zero (by omega : fuel ≠ 0)
    have hji : y ≠ i := hne y (by simp)
    have hjJ : y ∈ J i := hmem y (by simp)
    have hjT : y < s.left.size := hw.jrange i hi y hjJ
    have hcj : rd s.colIx y ≠ c := hw.offcol i hi y hjJ
    have hst2 := stable_relinkJ s u c y hst hjT hcj
    have hjrc : y ≠ rd s.right c := by
      intro hcon
      apply hw.hrc
      rw [← hcon]
      exact List.mem_append.mpr (Or.inr (List.mem_flatMap.mpr ⟨i, hi, hjJ⟩))
    have hnext : rd (relinkJ y u).left y = rd s.left y := by
      rw [relinkJ_left, hst.1, rd_hUnlink_left c y s hjrc]
    simp only [uncoverJLoop, if_neg hji]
    rw [hnext, relinkFold_cons]
    exact ih (rd s.left y) f (relinkJ y u) hrest (fun z hz => hne z (by simp [hz]))
      (fun z hz => hmem z (by simp [hz])) (by simpa using hf) hst2

lemma uncover_fold_I (s : DLX) (c : Nat) (I : List Nat) (J : Nat → List Nat)
    (hw : CoverWF s c I J) :
    ∀ (Ir : List Nat) (x fuel : Nat) (u : DLX),
    isPathB s.up x Ir c = true →
    (∀ i ∈ Ir, i ≠ c) →
    (∀ i ∈ Ir, i ∈ I) →
    Ir.length < fuel →
    Stable s u c →
    uncoverILoop c fuel x u = relinkFold (Ir.flatMap (fun i => (J i).reverse)) u ∧
      Stable s (relinkFold (Ir.flatMap (fun i => (J i).reverse)) u) c := by
  intro Ir
  induction Ir with
  | nil =>
    intro x fuel u hp _ _ hf hst
    simp only [isPathB, beq_iff_eq] at hp
    subst hp
    obtain ⟨f, rfl⟩ := Nat.exists_eq_succ_of_ne_zero (by omega : fuel ≠ 0)
    refine ⟨by simp [uncoverILoop, relinkFold, List.foldl], ?_⟩
    simpa [relinkFold, List.foldl] using hst
  | cons i rest ih =>
    intro x fuel u hp hne hmem hf hst
    simp only [isPathB, Bool.and_eq_true, beq_iff_eq] at hp
    obtain ⟨rfl, hrest⟩ := hp
    obtain ⟨f, rfl⟩ := Nat.exists_eq_succ_of_ne_zero (by omega : fuel ≠ 0)
    have hic : x ≠ c := hne x (by simp)
    have hiI : x ∈ I := hmem x (by simp)
    have hiT : x < s.left.size := coverWF_I_lt s c I J hw x hiI
    have hicol : rd s.colIx x = c := coverWF_I_col s c I J hw x hiI
    have hxrc : x ≠ rd s.right c := by
      intro hcon
      apply hw.hrc
      rw [← hcon]
      exact List.mem_append.mpr (Or.inl hiI)
    have hlsize : u.left.size = s.left.size := by
      rw [hst.1, hUnlink_left, size_wr]
    -- left-walk of the row of x, derived by reversing the right-walk
    obtain ⟨hjp, hjne, hjlen⟩ := chainTo_isPath (s.left.size + 1) s.right x
      (rd s.right x) (J x) (hw.rowsJ x hiI)
    have hlp : isPathB s.left (rd s.left x) (J x).reverse x = true := by
      apply isPath_reverse s.left (J x) s.right (rd s.right x) x x hjp
      · intro z hz
        exact hw.rowinv x hiI z (by simp [hz])
      · exact hw.rowinv x hiI x (by simp)
    have hstartj : rd u.left x = rd s.left x := by
      rw [hst.1, rd_hUnlink_left c x s hxrc]
    simp only [uncoverILoop, if_neg hic]
    rw [hlsize, hstartj]
    obtain ⟨hJrun, hstJ⟩ := uncover_fold_J s c I J hw x hiI (J x).reverse
      (rd s.left x) (s.left.size + 1) u hlp
      (by intro z hz; rw [List.mem_reverse] at hz; exact hjne z hz)
      (by intro z hz; rw [List.mem_reverse] at hz; exact hz)
      (by rw [List.length_reverse]; omega) hst
    rw [hJrun]
    have hnext : rd (relinkFold (J x).reverse u).up x = rd s.up x :=
      ((hstJ.2.2.2.2.2.1) x hiT hicol).2
    rw [hnext]
    obtain ⟨hIrun, hstI⟩ := ih (rd s.up x) f (relinkFold (J x).reverse u) hrest
      (fun z hz => hne z (by simp [hz])) (fun z hz => hmem z (by simp [hz]))
      (by simpa using hf) hstJ
    rw [hIrun]
    constructor
    · rw [List.flatMap_cons, relinkFold_append]
    · rw [List.flatMap_cons, relinkFold_append]
      exact hstI

lemma uncover_column_eq (c : Nat) (t : DLX) :
    uncover_column c t =
      hRelink c (uncoverILoop c (t.left.size + 1) (rd t.up c) t) := rfl

lemma hRelink_hUnlink (s : DLX) (c : Nat)
    (hcL : rd s.left (rd s.right c) = c) (hcR : rd s.right (rd s.left c) = c) :
    hRelink c (hUnlink c s) = s := by
  have hs2r : rd (hUnlink c s).right c = rd s.right c := by
    rw [hUnlink_right, rd_wr]
    split <;> rfl
  have hlfix : wr (hUnlink c s).left (rd s.right c) c = s.left := by
    rw [hUnlink_left, wr_wr]
    exact wr_rd_same _ _ _ hcL
  have hrfix : wr (hUnlink c s).right (rd s.left c) c = s.right := by
    rw [hUnlink_right, wr_wr]
    exact wr_rd_same _ _ _ hcR
  simp only [hRelink]
  rw [hs2r, hlfix, hrfix]
  rfl

/-- C2: for a well-formed matrix state (`CoverWF`: the structural facts
that hold of a built dancing-links matrix) and any column `c` linked from
the root with vertical chain `I` and row lists `J`, `cover_column c`
followed by `uncover_column c` restores the entire state — every node's
four links and every column's row-count — to structural equality with the
pre-cover state, because `uncover_column` re-walks the chain in the exact
reverse traversal order (up-then-left versus down-then-right) and each
relink step inverts the matching unlink step. -/
theorem c2_cover_uncover_roundtrip (s : DLX) (c : Nat) (I : List Nat)
    (J : Nat → List Nat) (hw : CoverWF s c I J) :
    uncover_column c (cover_column c s) = s := by
  obtain ⟨hcov, hstab⟩ := cover_column_fold s c I J hw
  have htl : (cover_column c s).left.size = s.left.size := by
    rw [hstab.1, hUnlink_left, size_wr]
  have htup : rd (cover_column c s).up c = rd s.up c :=
    (hstab.2.2.2.2.2.1 c hw.hcT hw.colc).2
  rw [uncover_column_eq, htl, htup]
  obtain ⟨hpd, hned, hlend⟩ := chainTo_isPath _ _ _ _ _ hw.chainI
  have hIlt := coverWF_I_lt s c I J hw
  have hup_path : isPathB s.up (rd s.up c) I.reverse c = true := by
    apply isPath_reverse s.up I s.down (rd s.down c) c c hpd
    · intro y hy
      exact (hw.vert y (hIlt y hy)).1
    · exact (hw.vert c hw.hcT).1
  obtain ⟨hrun, _⟩ := uncover_fold_I s c I J hw I.reverse (rd s.up c)
    (s.left.size + 1) (cover_column c s) hup_path
    (by intro z hz; rw [List.mem_reverse] at hz; exact hned z hz)
    (by intro z hz; rw [List.mem_reverse] at hz; exact hz)
    (by rw [List.length_reverse]; omega) hstab
  rw [hrun, hcov, flatMap_reverse]
  have hvalid : validSeqB (hUnlink c s) (I.flatMap J) = true := by
    apply validSeq_establish
    · intro x hx
      obtain ⟨i, hiI, hxJ⟩ := List.mem_flatMap.mp hx
      have hxT : x < s.left.size := hw.jrange i hiI x hxJ
      rw [hUnlink_up, hUnlink_down]
      exact hw.vert x hxT
    · intro x hx
      obtain ⟨i, hiI, hxJ⟩ := List.mem_flatMap.mp hx
      have hxT : x < s.left.size := hw.jrange i hiI x hxJ
      rw [hUnlink_up, hUnlink_down]
      constructor
      · rw [hw.size_up]
        exact (hw.vrange x hxT).2
      · rw [hw.size_down]
        exact (hw.vrange x hxT).1
    · exact hw.nodup
  rw [tele (I.flatMap J) (hUnlink c s) hvalid]
  exact hRelink_hUnlink s c hw.hcL hw.hcR


/-- Witness for C2: the built 1×1 matrix, covering column 1 (whose chain
is the single row node 5 with row mates 6, 7, 8) and uncovering it
restores the state exactly. -/
theorem c2_witness :
    CoverWF (build_base 1) 1 [5] (fun i => if i = 5 then [6, 7, 8] else []) ∧
    uncover_column 1 (cover_column 1 (build_base 1)) = build_base 1 :=
  have hw : CoverWF (build_base 1) 1 [5] (fun i => if i = 5 then [6, 7, 8] else []) := by
    constructor <;> decide
  ⟨hw, c2_cover_uncover_roundtrip _ _ _ _ hw⟩

end SudokuDLX
